import Mathlib

/-!
Verification of the `basin` accumulator machine against its specification.

The repository's own source file `src/cli/src/machine/accumulator.rs` is the
CLI call-site: command-line argument structures and the dispatch
`handle_accumulator`.  The accumulator core (MMR, snapshot store, access
control, registry) lives in external crates, so those components are modelled
here from the specification, as marked on each definition.  Definitions taken
from the CLI source are marked with the corresponding Rust lines.
-/

namespace Basin

/-- A commitment value.  The specification leaves the hash function as a
pinned parameter (`hashLeaf`, `hashNode`: pure and deterministic); it is
modelled by the free term algebra, which is a pure, deterministic and
injective choice of hash engine. -/
inductive Commitment where
  | leaf (payload : List Nat)
  | node (l r : Commitment)
deriving DecidableEq, Repr

/-- Modelled from the spec: `hashLeaf(payload) -> Commitment` (§4.1). -/
def hashLeaf (payload : List Nat) : Commitment := Commitment.leaf payload

/-- Modelled from the spec: `hashNode(left, right) -> Commitment` (§4.1). -/
def hashNode (l r : Commitment) : Commitment := Commitment.node l r

/-- A peak: the top commitment of one mountain, tagged with its mountain
height (§3). -/
structure Peak where
  height : Nat
  commit : Commitment
deriving DecidableEq, Repr

/-- Modelled from the spec: the MMR Core state (§4.2): ordered list of
current peaks tagged with mountain height, and per-index storage of leaf
payloads.  The peak stack is kept newest (lowest) mountain first, so the
two highest-index peaks of the spec are at the head. -/
structure MMR where
  peaks : List Peak
  leaves : List (List Nat)
deriving DecidableEq, Repr

/-- The empty accumulator. -/
def MMR.empty : MMR := ⟨[], []⟩

/-- Modelled from the spec: the MMR carry-propagation loop of `append`
(§4.2): push a new peak onto the stack (newest first) and, while the two
highest-index peaks have equal height, replace them with a single merged
peak of height+1, the peak added earlier being the left child. -/
def pushPeak (p : Peak) : List Peak → List Peak
  | [] => [p]
  | q :: rest =>
    if p.height = q.height then
      pushPeak ⟨p.height + 1, hashNode q.commit p.commit⟩ rest
    else
      p :: q :: rest

/-- Modelled from the spec: `append(payload)` (§4.2): hash the payload,
push a new height-0 mountain, run carry propagation, store the leaf. -/
def MMR.append (m : MMR) (payload : List Nat) : MMR :=
  { peaks := pushPeak ⟨0, hashLeaf payload⟩ m.peaks,
    leaves := m.leaves ++ [payload] }

/-- A sequence of appends, oldest first. -/
def MMR.appendAll : MMR → List (List Nat) → MMR
  | m, [] => m
  | m, p :: rest => MMR.appendAll (m.append p) rest

/-- Modelled from the spec: `count() -> integer`, the current leaf count
(§4.2). -/
def MMR.count (m : MMR) : Nat := m.leaves.length

/-- Modelled from the spec: the error taxonomy (§7). -/
inductive Err where
  | PermissionDenied
  | NotFound
  | InvalidHeight
deriving DecidableEq, Repr

/-- Modelled from the spec: `leaf(index) -> bytes`: the stored payload for
`index`, failing with `NotFound` if `index >= leafCount` (§4.2). -/
def MMR.leaf (m : MMR) (i : Nat) : Except Err (List Nat) :=
  match m.leaves.get? i with
  | some b => .ok b
  | none => .error .NotFound

/-- Modelled from the spec: `peaks() -> ordered sequence of Commitment`,
highest mountain first (§4.2).  The internal stack is newest/lowest first,
so the query reverses it. -/
def MMR.peaksQuery (m : MMR) : List Commitment :=
  m.peaks.reverse.map Peak.commit

/-- Modelled from the spec: bagging the peak list (§4.2): fold peaks
right-to-left, `acc = hashNode(peaks[i], acc)`, seeded by the lowest peak. -/
def bagPeaks : List Commitment → Option Commitment
  | [] => none
  | [c] => some c
  | c :: rest => (bagPeaks rest).map (fun acc => hashNode c acc)

/-- Modelled from the spec: `root() -> Commitment`, bagging the current
peaks (§4.2); `none` on an empty accumulator (no peaks to bag). -/
def MMR.root (m : MMR) : Option Commitment :=
  bagPeaks m.peaksQuery

/-- Positions of the set bits of a natural number, least significant
first. -/
def bitIndices : Nat → List Nat
  | 0 => []
  | n + 1 =>
    (if (n + 1) % 2 = 1 then [0] else []) ++ (bitIndices ((n + 1) / 2)).map (· + 1)
decreasing_by exact Nat.div_lt_self (Nat.succ_pos n) (by omega)

theorem bitIndices_pos (m : Nat) (hm : m ≠ 0) :
    bitIndices m = (if m % 2 = 1 then [0] else []) ++ (bitIndices (m / 2)).map (· + 1) := by
  match m, hm with
  | n + 1, _ => rw [bitIndices]

theorem bitIndices_ne_nil (m : Nat) (hm : m ≠ 0) : bitIndices m ≠ [] := by
  induction m using Nat.strong_induction_on with
  | _ m ih =>
    rw [bitIndices_pos m hm]
    rcases Nat.mod_two_eq_zero_or_one m with h2 | h2
    · have hd : m / 2 ≠ 0 := by omega
      have := ih (m / 2) (by omega) hd
      simp [h2]
      intro hcon
      exact this hcon
    · simp [h2]

theorem pushPeak_heights (m : Nat) :
    ∀ (k : Nat) (c : Commitment) (s : List Peak),
      s.map Peak.height = (bitIndices m).map (· + k) →
      (pushPeak ⟨k, c⟩ s).map Peak.height = (bitIndices (m + 1)).map (· + k) := by
  induction m using Nat.strong_induction_on with
  | _ m ih =>
    intro k c s hs
    match s with
    | [] =>
      have hm : m = 0 := by
        by_contra hm0
        exact bitIndices_ne_nil m hm0 (by simpa using hs.symm)
      subst hm
      simp [pushPeak, bitIndices]
    | p :: s' =>
      have hm : m ≠ 0 := by
        intro hm0
        subst hm0
        simp [bitIndices] at hs
      rw [bitIndices_pos m hm] at hs
      rcases Nat.mod_two_eq_zero_or_one m with h2 | h2
      · -- m even: the lowest existing peak is higher than k, no merge happens
        rw [if_neg (show ¬ m % 2 = 1 by omega)] at hs
        simp only [List.nil_append] at hs
        obtain ⟨e, es, hbi⟩ :=
          List.exists_cons_of_ne_nil (bitIndices_ne_nil (m / 2) (by omega))
        have hp : p.height = e + 1 + k := by
          have h := hs
          rw [hbi] at h
          simp only [List.map_cons] at h
          exact (List.cons_eq_cons.mp h).1
        simp only [pushPeak]
        rw [if_neg (show ¬ k = p.height by omega)]
        rw [bitIndices_pos (m + 1) (by omega), if_pos (show (m + 1) % 2 = 1 by omega),
          show (m + 1) / 2 = m / 2 by omega]
        simp only [List.cons_append, List.nil_append, List.map_cons]
        refine List.cons_eq_cons.mpr ⟨by omega, ?_⟩
        simpa using hs
      · -- m odd: the pushed peak merges with the existing height-k peak
        rw [if_pos h2] at hs
        simp only [List.cons_append, List.nil_append, List.map_cons] at hs
        have hp : p.height = 0 + k := (List.cons_eq_cons.mp hs).1
        have hs' : s'.map Peak.height = ((bitIndices (m / 2)).map (· + 1)).map (· + k) :=
          (List.cons_eq_cons.mp hs).2
        simp only [pushPeak]
        rw [if_pos (show k = p.height by omega)]
        have hs'' : s'.map Peak.height = (bitIndices (m / 2)).map (· + (k + 1)) := by
          rw [hs', List.map_map]
          apply List.map_congr_left
          intro a _
          simp only [Function.comp_apply]
          omega
        rw [ih (m / 2) (by omega) (k + 1) (hashNode p.commit c) s' hs'']
        rw [bitIndices_pos (m + 1) (by omega), if_neg (show ¬ (m + 1) % 2 = 1 by omega),
          show (m + 1) / 2 = m / 2 + 1 by omega]
        simp only [List.nil_append, List.map_map]
        apply List.map_congr_left
        intro a _
        simp only [Function.comp_apply]
        omega

theorem mem_bitIndices (n : Nat) : ∀ h : Nat, h ∈ bitIndices n ↔ n.testBit h := by
  induction n using Nat.strong_induction_on with
  | _ n ih =>
    intro h
    rcases Nat.eq_zero_or_pos n with hn | hn
    · subst hn
      simp [bitIndices]
    · rw [bitIndices_pos n (by omega)]
      match h with
      | 0 =>
        rw [Nat.testBit_zero]
        rcases Nat.mod_two_eq_zero_or_one n with h2 | h2 <;>
          simp [h2, List.mem_append, List.mem_map]
      | h + 1 =>
        rw [Nat.testBit_add_one, ← ih (n / 2) (by omega) h]
        rcases Nat.mod_two_eq_zero_or_one n with h2 | h2 <;>
          simp [h2, List.mem_append, List.mem_map]

theorem bitIndices_pairwise (n : Nat) : (bitIndices n).Pairwise (· < ·) := by
  induction n using Nat.strong_induction_on with
  | _ n ih =>
    rcases Nat.eq_zero_or_pos n with hn | hn
    · subst hn
      simp [bitIndices]
    · rw [bitIndices_pos n (by omega)]
      have hmap : ((bitIndices (n / 2)).map (· + 1)).Pairwise (· < ·) :=
        (ih (n / 2) (by omega)).map _ (fun a b hab => by omega)
      rcases Nat.mod_two_eq_zero_or_one n with h2 | h2
      · simpa [h2] using hmap
      · rw [if_pos h2]
        simp only [List.cons_append, List.nil_append]
        refine List.pairwise_cons.mpr ⟨?_, hmap⟩
        intro b hb
        obtain ⟨a, -, rfl⟩ := List.mem_map.mp hb
        omega

theorem bitIndices_nodup (n : Nat) : (bitIndices n).Nodup :=
  (bitIndices_pairwise n).imp (fun hab => Nat.ne_of_lt hab)

theorem bitIndices_length_digits (n : Nat) :
    (bitIndices n).length = (Nat.digits 2 n).count 1 := by
  induction n using Nat.strong_induction_on with
  | _ n ih =>
    rcases Nat.eq_zero_or_pos n with hn | hn
    · subst hn
      simp [bitIndices]
    · rw [bitIndices_pos n (by omega), Nat.digits_def' (by norm_num : (1:ℕ) < 2) hn]
      rw [List.length_append, List.length_map, ih (n / 2) (by omega), List.count_cons]
      rcases Nat.mod_two_eq_zero_or_one n with h2 | h2 <;> simp [h2]
      omega

theorem appendAll_leaves (ps : List (List Nat)) :
    ∀ m : MMR, (MMR.appendAll m ps).leaves = m.leaves ++ ps := by
  induction ps with
  | nil =>
    intro m
    simp [MMR.appendAll]
  | cons p rest ih =>
    intro m
    simp only [MMR.appendAll]
    rw [ih]
    simp [MMR.append]

theorem appendAll_peaks_heights (ps : List (List Nat)) :
    ∀ (m : MMR) (n : Nat), m.peaks.map Peak.height = bitIndices n →
      (MMR.appendAll m ps).peaks.map Peak.height = bitIndices (n + ps.length) := by
  induction ps with
  | nil =>
    intro m n h
    simpa [MMR.appendAll] using h
  | cons p rest ih =>
    intro m n h
    simp only [MMR.appendAll]
    have h0 : m.peaks.map Peak.height = (bitIndices n).map (· + 0) := by simpa using h
    have hstep : (m.append p).peaks.map Peak.height = bitIndices (n + 1) := by
      have hm := pushPeak_heights n 0 (hashLeaf p) m.peaks h0
      simpa [MMR.append] using hm
    rw [ih (m.append p) (n + 1) hstep]
    congr 1
    simp only [List.length_cons]
    omega

/-- Modelled from the spec: build the Versioned Snapshot Store from a ledger
history of committed appends `(height, payload)`: `recordSnapshot` is called
once per height at which an append commits (§4.4). -/
def buildStore : MMR → List (Nat × List Nat) → List (Nat × MMR)
  | _, [] => []
  | m, (h, p) :: rest => (h, m.append p) :: buildStore (m.append p) rest

/-- Modelled from the spec: `resolve(height)` returns the latest snapshot at
or before `height`; `none` models the empty/zero pre-creation state (§4.4). -/
def resolve (snaps : List (Nat × MMR)) (h : Nat) : Option MMR :=
  ((snaps.filter (fun s => s.1 ≤ h)).getLast?).map Prod.snd

/-- Height-scoped `count` query (§4.4, §6). -/
def countAt (snaps : List (Nat × MMR)) (h : Nat) : Option Nat :=
  (resolve snaps h).map MMR.count

/-- Height-scoped `peaks` query (§4.4, §6). -/
def peaksAt (snaps : List (Nat × MMR)) (h : Nat) : Option (List Commitment) :=
  (resolve snaps h).map MMR.peaksQuery

/-- Height-scoped `root` query (§4.4, §6). -/
def rootAt (snaps : List (Nat × MMR)) (h : Nat) : Option (Option Commitment) :=
  (resolve snaps h).map MMR.root

/-- Height-scoped `leaf` query (§4.4, §6). -/
def leafAt (snaps : List (Nat × MMR)) (i h : Nat) : Option (Except Err (List Nat)) :=
  (resolve snaps h).map (fun m => m.leaf i)

/-- Modelled from the spec: the write-access policy, `OnlyOwner | Public`,
fixed at creation (§3). -/
inductive WriteAccess where
  | OnlyOwner
  | Public
deriving DecidableEq, Repr

/-- Modelled from the spec: `canWrite(caller, policy, owner)` (§4.3). -/
def canWrite (caller : Nat) (policy : WriteAccess) (owner : Nat) : Bool :=
  match policy with
  | .OnlyOwner => caller == owner
  | .Public => true

/-- Modelled from the spec: one accumulator machine: owner identity and
write policy fixed at creation, plus its own MMR state (§3). -/
structure Machine where
  owner : Nat
  access : WriteAccess
  mmr : MMR
deriving DecidableEq, Repr

/-- Modelled from the spec: a guarded append (§4.3): the policy is checked
synchronously before `append`; violation yields `PermissionDenied`. -/
def Machine.push (mach : Machine) (caller : Nat) (payload : List Nat) :
    Except Err Machine :=
  if canWrite caller mach.access mach.owner then
    .ok { mach with mmr := mach.mmr.append payload }
  else
    .error .PermissionDenied

/-- The machine state observed after a push attempt: the new state on
success, the old state on rejection (§4.3: append is all-or-nothing). -/
def Machine.pushState (mach : Machine) (caller : Nat) (payload : List Nat) : Machine :=
  match mach.push caller payload with
  | .ok m' => m'
  | .error _ => mach

/-- Modelled from the spec: the Machine Registry's address → instance map
(§4.5). -/
structure Registry where
  machines : List (Nat × Machine)
deriving DecidableEq, Repr

/-- Modelled from the spec: `attach(address)` resolves an address to its
accumulator instance, failing with `NotFound` if unknown (§4.5). -/
def Registry.attach (r : Registry) (addr : Nat) : Except Err Machine :=
  match r.machines.find? (fun e => e.1 == addr) with
  | some e => .ok e.2
  | none => .error .NotFound

/-- Broadcast mode for a transaction (`BroadcastMode` in the CLI). -/
inductive BroadcastMode where
  | Async
  | Sync
  | Commit
deriving DecidableEq, Repr

/-- From `accumulator.rs` lines 71-73: the `broadcast_mode` argument of the
Push command defaults to `BroadcastMode::Commit` when not given. -/
def pushBroadcastMode (given : Option BroadcastMode) : BroadcastMode :=
  given.getD BroadcastMode.Commit

/-- Modelled from the spec: `broadcastMode` governs how long the append call
blocks before returning; `Commit` waits for final commit (§6, glossary). -/
def waitsForFinalCommit : BroadcastMode → Bool
  | .Commit => true
  | .Async => false
  | .Sync => false

/-- From `accumulator.rs` lines 53-55: `public_write` defaults to `false`. -/
def publicWriteDefault : Bool := false

/-- From `accumulator.rs` lines 114-118: the Create arm chooses
`WriteAccess::Public` if `public_write` is set, else `WriteAccess::OnlyOwner`. -/
def createWriteAccess (publicWrite : Bool) : WriteAccess :=
  if publicWrite then WriteAccess.Public else WriteAccess.OnlyOwner

/-- The write access chosen by the Create command for a possibly-omitted
`--public-write` flag. -/
def createArgsWriteAccess (flag : Option Bool) : WriteAccess :=
  createWriteAccess (flag.getD publicWriteDefault)

/-- Query height (`FvmQueryHeight`): latest committed state, pending state,
or an explicit height. -/
inductive FvmQueryHeight where
  | committed
  | pending
  | height (h : Nat)
deriving DecidableEq, Repr

/-- From `accumulator.rs` lines 83-85: the `height` argument of every read
command defaults to `"committed"` when unspecified. -/
def queryHeightArg (given : Option FvmQueryHeight) : FvmQueryHeight :=
  given.getD FvmQueryHeight.committed

/-- Modelled from the spec: the chain as seen by a reader: committed
snapshots, the latest committed height, and the state including pending
transactions (§4.4, §6). -/
structure ChainState where
  snaps : List (Nat × MMR)
  committedTip : Nat
  pendingState : MMR
deriving DecidableEq, Repr

/-- Modelled from the spec: the accumulator state observed by a query at a
given `FvmQueryHeight`: `committed` reads the latest committed snapshot
(§6). -/
def ChainState.stateAt (ch : ChainState) : FvmQueryHeight → Option MMR
  | .committed => resolve ch.snaps ch.committedTip
  | .pending => some ch.pendingState
  | .height h => resolve ch.snaps h

/-- The latest committed snapshot. -/
def ChainState.latestCommitted (ch : ChainState) : Option MMR :=
  resolve ch.snaps ch.committedTip

/-- The `count` read with an optional height argument. -/
def ChainState.countQuery (ch : ChainState) (given : Option FvmQueryHeight) : Option Nat :=
  (ch.stateAt (queryHeightArg given)).map MMR.count

/-- The `peaks` read with an optional height argument. -/
def ChainState.peaksRead (ch : ChainState) (given : Option FvmQueryHeight) :
    Option (List Commitment) :=
  (ch.stateAt (queryHeightArg given)).map MMR.peaksQuery

/-- The `root` read with an optional height argument. -/
def ChainState.rootQuery (ch : ChainState) (given : Option FvmQueryHeight) :
    Option (Option Commitment) :=
  (ch.stateAt (queryHeightArg given)).map MMR.root

/-- The `leaf` read with an optional height argument. -/
def ChainState.leafQuery (ch : ChainState) (i : Nat) (given : Option FvmQueryHeight) :
    Option (Except Err (List Nat)) :=
  (ch.stateAt (queryHeightArg given)).map (fun m => m.leaf i)

/-- A JSON value as produced by the CLI via `serde_json::json!`. -/
inductive JsonVal where
  | num (n : Nat)
  | commitVal (c : Commitment)
  | commitList (cs : List Commitment)
deriving DecidableEq, Repr

/-- What a query arm of `handle_accumulator` writes: either raw bytes
written directly to stdout (Leaf arm, lines 158-161) or a JSON object passed
to `print_json` (Count/Peaks/Root arms, lines 163-180). -/
inductive Output where
  | raw (bytes : List Nat)
  | printJson (fields : List (String × JsonVal))
deriving DecidableEq, Repr

/-- The query subcommands of `handle_accumulator`. -/
inductive QueryCmd where
  | leafCmd (i : Nat)
  | countCmd
  | peaksCmd
  | rootCmd
deriving DecidableEq, Repr

/-- From `accumulator.rs` lines 153-180: the query arms of
`handle_accumulator` run the query against the attached machine and render
the result: Leaf writes the raw payload bytes to stdout (no JSON wrapping);
Count, Peaks and Root print one-field JSON objects. -/
def handleQuery (m : MMR) : QueryCmd → Except Err Output
  | .leafCmd i =>
    match m.leaf i with
    | .ok b => .ok (.raw b)
    | .error e => .error e
  | .countCmd => .ok (.printJson [("count", .num m.count)])
  | .peaksCmd => .ok (.printJson [("peaks", .commitList m.peaksQuery)])
  | .rootCmd =>
    match m.root with
    | some r => .ok (.printJson [("root", .commitVal r)])
    | none => .error .NotFound

theorem buildStore_heights (ys : List (Nat × List Nat)) :
    ∀ m : MMR, (buildStore m ys).map Prod.fst = ys.map Prod.fst := by
  induction ys with
  | nil =>
    intro m
    rfl
  | cons e rest ih =>
    intro m
    match e with
    | (h, p) => simp [buildStore, ih]

theorem buildStore_append (xs ys : List (Nat × List Nat)) :
    ∀ m : MMR, buildStore m (xs ++ ys)
      = buildStore m xs ++ buildStore (MMR.appendAll m (xs.map Prod.snd)) ys := by
  induction xs with
  | nil =>
    intro m
    rfl
  | cons e rest ih =>
    intro m
    match e with
    | (h, p) => simp [buildStore, MMR.appendAll, ih]

theorem resolve_append_high (snaps more : List (Nat × MMR)) (h : Nat)
    (hhigh : ∀ s ∈ more, h < s.1) :
    resolve (snaps ++ more) h = resolve snaps h := by
  unfold resolve
  rw [List.filter_append]
  have hnil : more.filter (fun s => decide (s.1 ≤ h)) = [] := by
    rw [List.filter_eq_nil_iff]
    intro a ha
    simpa using Nat.not_le.mpr (hhigh a ha)
  rw [hnil, List.append_nil]

/-- C1: after any sequence of N successful appends starting from the empty
accumulator, `count()` returns N; for every `0 ≤ i < N`, `leaf(i)` returns
byte-for-byte the payload appended at position i; and `leaf(i)` fails with
`NotFound` for `i ≥ N`. -/
theorem append_count_leaf (ps : List (List Nat)) :
    (MMR.appendAll MMR.empty ps).count = ps.length ∧
    (∀ (i : Nat) (hi : i < ps.length),
      (MMR.appendAll MMR.empty ps).leaf i = .ok (ps.get ⟨i, hi⟩)) ∧
    (∀ i : Nat, ps.length ≤ i →
      (MMR.appendAll MMR.empty ps).leaf i = .error .NotFound) := by
  have hl : (MMR.appendAll MMR.empty ps).leaves = ps := by
    simpa [MMR.empty] using appendAll_leaves ps MMR.empty
  refine ⟨?_, ?_, ?_⟩
  · simp [MMR.count, hl]
  · intro i hi
    simp [MMR.leaf, hl, List.getElem?_eq_getElem hi]
  · intro i hi
    simp [MMR.leaf, hl, List.getElem?_eq_none hi]

/-- Witness for C1 at the concrete appends `[1]`, `[2]`, `[3]`. -/
theorem append_count_leaf_witness :
    (MMR.appendAll MMR.empty [[1], [2], [3]]).leaf 1 = .ok [2] ∧
    (MMR.appendAll MMR.empty [[1], [2], [3]]).leaf 3 = .error .NotFound :=
  ⟨(append_count_leaf [[1], [2], [3]]).2.1 1 (by decide),
   (append_count_leaf [[1], [2], [3]]).2.2 3 (by decide)⟩

/-- C2: after N appends the number of peaks returned by `peaks()` equals the
number of set bits in the binary representation of N, and the multiset of
peak heights is exactly the set of set-bit positions of N (one peak per set
bit, no duplicate heights). -/
theorem peaks_match_binary (ps : List (List Nat)) :
    (MMR.appendAll MMR.empty ps).peaksQuery.length
        = (Nat.digits 2 ps.length).count 1 ∧
    ((MMR.appendAll MMR.empty ps).peaks.map Peak.height).Nodup ∧
    ∀ h : Nat, h ∈ (MMR.appendAll MMR.empty ps).peaks.map Peak.height
      ↔ (ps.length).testBit h := by
  have hh : (MMR.appendAll MMR.empty ps).peaks.map Peak.height
      = bitIndices ps.length := by
    have h0 : (MMR.empty : MMR).peaks.map Peak.height = bitIndices 0 := by
      simp [MMR.empty, bitIndices]
    simpa using appendAll_peaks_heights ps MMR.empty 0 h0
  refine ⟨?_, ?_, ?_⟩
  · have hlen := congrArg List.length hh
    simp only [List.length_map] at hlen
    simp only [MMR.peaksQuery, List.length_map, List.length_reverse]
    rw [hlen, bitIndices_length_digits]
  · rw [hh]
    exact bitIndices_nodup ps.length
  · intro h
    rw [hh]
    exact mem_bitIndices ps.length h

/-- C3: `root()` is a pure deterministic function of the ordered peak list:
any two accumulator instances whose `peaks()` results are identical ordered
lists have identical roots, regardless of call history. -/
theorem root_pure_function_of_peaks (m₁ m₂ : MMR)
    (hpeaks : m₁.peaksQuery = m₂.peaksQuery) : m₁.root = m₂.root := by
  unfold MMR.root
  rw [hpeaks]

/-- Witness for C3: an accumulator built by two appends and a distinct
instance with the same peak list but different leaf storage. -/
theorem root_pure_function_of_peaks_witness :
    (MMR.appendAll MMR.empty [[1], [2]]).root
      = (MMR.mk [⟨1, Commitment.node (Commitment.leaf [1]) (Commitment.leaf [2])⟩]
          [[9], [9], [9]]).root :=
  root_pure_function_of_peaks _ _ (by decide)

/-- C4: historical stability: for a height h at which a snapshot was
recorded, the height-scoped reads `root(h)`, `count(h)`, `peaks(h)` and
`leaf(i, h)` are unchanged by any appends committed at heights greater
than h. -/
theorem historical_stability (m0 : MMR) (hist ext : List (Nat × List Nat)) (h : Nat)
    (_hrec : h ∈ (buildStore m0 hist).map Prod.fst)
    (hhigh : ∀ e ∈ ext, h < e.1) :
    rootAt (buildStore m0 (hist ++ ext)) h = rootAt (buildStore m0 hist) h ∧
    countAt (buildStore m0 (hist ++ ext)) h = countAt (buildStore m0 hist) h ∧
    peaksAt (buildStore m0 (hist ++ ext)) h = peaksAt (buildStore m0 hist) h ∧
    ∀ i : Nat,
      leafAt (buildStore m0 (hist ++ ext)) i h = leafAt (buildStore m0 hist) i h := by
  have hres : resolve (buildStore m0 (hist ++ ext)) h = resolve (buildStore m0 hist) h := by
    rw [buildStore_append]
    apply resolve_append_high
    intro s hsm
    have hs1 : s.1 ∈ (buildStore (MMR.appendAll m0 (hist.map Prod.snd)) ext).map Prod.fst :=
      List.mem_map_of_mem Prod.fst hsm
    rw [buildStore_heights] at hs1
    obtain ⟨e, he, heq⟩ := List.mem_map.mp hs1
    rw [← heq]
    exact hhigh e he
  exact ⟨by simp [rootAt, hres], by simp [countAt, hres], by simp [peaksAt, hres],
    fun i => by simp [leafAt, hres]⟩

/-- Witness for C4: appends at heights 1 and 2, a later append at height 3,
queried at height 2. -/
theorem historical_stability_witness :
    2 ∈ (buildStore MMR.empty [(1, [10]), (2, [20])]).map Prod.fst ∧
    rootAt (buildStore MMR.empty ([(1, [10]), (2, [20])] ++ [(3, [30])])) 2
      = rootAt (buildStore MMR.empty [(1, [10]), (2, [20])]) 2 :=
  ⟨by decide,
   (historical_stability MMR.empty [(1, [10]), (2, [20])] [(3, [30])] 2
      (by decide) (by decide)).1⟩

/-- C5: on an `OnlyOwner` accumulator a non-owner push fails with
`PermissionDenied` and the observed state is entirely unchanged (same
machine, so `count()` and the peaks are untouched); on a `Public`
accumulator a push by any identity succeeds, appending the payload. -/
theorem push_access_control (mach : Machine) (caller : Nat) (payload : List Nat) :
    (mach.access = .OnlyOwner → caller ≠ mach.owner →
      mach.push caller payload = .error .PermissionDenied ∧
      mach.pushState caller payload = mach) ∧
    (mach.access = .Public →
      mach.push caller payload = .ok { mach with mmr := mach.mmr.append payload } ∧
      (mach.pushState caller payload).mmr.count = mach.mmr.count + 1) := by
  constructor
  · intro hacc hne
    have hcw : canWrite caller mach.access mach.owner = false := by
      rw [hacc]
      simpa [canWrite] using hne
    exact ⟨by simp [Machine.push, hcw], by simp [Machine.pushState, Machine.push, hcw]⟩
  · intro hacc
    have hcw : canWrite caller mach.access mach.owner = true := by
      rw [hacc]
      rfl
    refine ⟨by simp [Machine.push, hcw], ?_⟩
    simp [Machine.pushState, Machine.push, hcw, MMR.count, MMR.append]

/-- Witness for C5: a non-owner push on an `OnlyOwner` machine is denied;
the same push on a `Public` machine succeeds. -/
theorem push_access_control_witness :
    (Machine.mk 5 .OnlyOwner MMR.empty).push 7 [1] = .error .PermissionDenied ∧
    (Machine.mk 5 .OnlyOwner MMR.empty).pushState 7 [1]
      = Machine.mk 5 .OnlyOwner MMR.empty ∧
    (Machine.mk 5 .Public MMR.empty).push 7 [1]
      = .ok (Machine.mk 5 .Public (MMR.empty.append [1])) :=
  ⟨((push_access_control (Machine.mk 5 .OnlyOwner MMR.empty) 7 [1]).1 rfl
      (by decide)).1,
   ((push_access_control (Machine.mk 5 .OnlyOwner MMR.empty) 7 [1]).1 rfl
      (by decide)).2,
   ((push_access_control (Machine.mk 5 .Public MMR.empty) 7 [1]).2 rfl).1⟩

/-- C6: `attach(address)` on an address unknown to the registry fails with
`NotFound` (no usable handle); on a registered address it resolves to a
machine instance. -/
theorem attach_resolves (r : Registry) (addr : Nat) :
    (addr ∉ r.machines.map Prod.fst → r.attach addr = .error .NotFound) ∧
    (addr ∈ r.machines.map Prod.fst → ∃ mach : Machine, r.attach addr = .ok mach) := by
  constructor
  · intro hnot
    unfold Registry.attach
    have hfind : r.machines.find? (fun e => e.1 == addr) = none := by
      rw [List.find?_eq_none]
      intro e he
      simp only [beq_iff_eq]
      intro heq
      exact hnot (heq ▸ List.mem_map_of_mem Prod.fst he)
    rw [hfind]
  · intro hmem
    obtain ⟨e, he, heq⟩ := List.mem_map.mp hmem
    have hsome : (r.machines.find? (fun x => x.1 == addr)).isSome := by
      rw [List.find?_isSome]
      exact ⟨e, he, by simp [heq]⟩
    obtain ⟨x, hx⟩ := Option.isSome_iff_exists.mp hsome
    refine ⟨x.2, ?_⟩
    unfold Registry.attach
    rw [hx]

/-- Witness for C6: a one-entry registry, attached at an unknown and at the
known address. -/
theorem attach_resolves_witness :
    (Registry.mk [(1, Machine.mk 0 .Public MMR.empty)]).attach 2
      = .error .NotFound ∧
    ∃ mach : Machine,
      (Registry.mk [(1, Machine.mk 0 .Public MMR.empty)]).attach 1 = .ok mach :=
  ⟨(attach_resolves (Registry.mk [(1, Machine.mk 0 .Public MMR.empty)]) 2).1
      (by decide),
   (attach_resolves (Registry.mk [(1, Machine.mk 0 .Public MMR.empty)]) 1).2
      (by decide)⟩

/-- C7: for each read operation (`leaf`, `count`, `peaks`, `root`), when the
caller gives no height the query is evaluated at the latest committed
snapshot. -/
theorem default_height_committed (ch : ChainState) :
    ch.countQuery none = ch.latestCommitted.map MMR.count ∧
    ch.peaksRead none = ch.latestCommitted.map MMR.peaksQuery ∧
    ch.rootQuery none = ch.latestCommitted.map MMR.root ∧
    ∀ i : Nat, ch.leafQuery i none = ch.latestCommitted.map (fun m => m.leaf i) :=
  ⟨rfl, rfl, rfl, fun _ => rfl⟩

/-- C8: a Push invocation without an explicit broadcast mode submits the
transaction with mode `Commit`, the mode that waits for final commit before
returning. -/
theorem default_broadcast_commit :
    pushBroadcastMode none = BroadcastMode.Commit ∧
    waitsForFinalCommit (pushBroadcastMode none) = true :=
  ⟨rfl, rfl⟩

/-- C9: the Create command's write-access policy is `Public` exactly when
the `public_write` flag is set; an omitted flag yields `OnlyOwner`. -/
theorem create_write_access :
    ∀ flag : Option Bool,
      (createArgsWriteAccess flag = .Public ↔ flag = some true) ∧
      createArgsWriteAccess none = .OnlyOwner := by
  decide

/-- C10: a successful Leaf query writes the raw payload bytes verbatim to
stdout (no JSON wrapping); the Count, Peaks and Root queries print one-field
JSON objects keyed `count`, `peaks` and `root` respectively. -/
theorem query_output_shapes (m : MMR) :
    (∀ (i : Nat) (b : List Nat),
      m.leaf i = .ok b → handleQuery m (.leafCmd i) = .ok (.raw b)) ∧
    handleQuery m .countCmd = .ok (.printJson [("count", .num m.count)]) ∧
    handleQuery m .peaksCmd = .ok (.printJson [("peaks", .commitList m.peaksQuery)]) ∧
    (∀ r : Commitment,
      m.root = some r → handleQuery m .rootCmd = .ok (.printJson [("root", .commitVal r)])) := by
  refine ⟨?_, rfl, rfl, ?_⟩
  · intro i b hib
    simp [handleQuery, hib]
  · intro r hr
    simp [handleQuery, hr]

/-- Witness for C10: the Leaf and Root outputs on a two-leaf accumulator. -/
theorem query_output_shapes_witness :
    handleQuery (MMR.appendAll MMR.empty [[7], [8]]) (.leafCmd 0) = .ok (.raw [7]) ∧
    handleQuery (MMR.appendAll MMR.empty [[7], [8]]) .rootCmd
      = .ok (.printJson
          [("root", .commitVal (Commitment.node (Commitment.leaf [7]) (Commitment.leaf [8])))]) :=
  ⟨(query_output_shapes (MMR.appendAll MMR.empty [[7], [8]])).1 0 [7] rfl,
   (query_output_shapes (MMR.appendAll MMR.empty [[7], [8]])).2.2.2
      (Commitment.node (Commitment.leaf [7]) (Commitment.leaf [8])) rfl⟩

end Basin
